import Mathlib

/-
Verification of the layer core of a small from-scratch neural-network
library (src/nn/layers.py).

The core is a forward/backward/local-gradient protocol:
  * `Function` keeps two dictionaries, `cache` (intermediate values of the
    most recent forward pass) and `grad` (local gradients of the most
    recent forward pass); `Function.__call__` runs `forward` and then
    stores `local_grad` into `grad`.
  * `Layer` adds a `weight` dictionary and a `weight_update` dictionary,
    plus `_update_weights(lr)` performing plain gradient descent.
  * `Linear` is the affine layer `X * W + b`; `Sigmoid` the elementwise
    logistic activation.

Embedding choices:
  * numpy 2-d arrays become `Mat := List (List Int)`; exact integer
    arithmetic stands in for float arithmetic, since every property at
    stake is an exact ring identity (the proofs below use only
    commutative-ring reasoning, so they transfer verbatim to rational or
    real scalars).
  * the Python string keys "X", "W", "b", "output" of the dictionaries
    become the inductive type `Key`; dictionaries become association
    lists `List (Key × Mat)` with Python-dict update semantics
    (replace in place when the key exists, append otherwise).
  * a Python `KeyError` (dictionary lookup failure) is modelled by
    `Option`: operations whose source can raise return `none` there.
  * the pseudo-random weight initialisation draws are external input;
    a `Linear` is built from explicitly given `W` and `b` tensors.
-/

namespace NNFS

abbrev Scalar := ℤ

/-- A numpy 2-d array: a list of rows. -/
abbrev Mat := List (List Scalar)

/-- Dot product of two equal-length vectors. -/
def dotProd (r c : List Scalar) : Scalar := (List.zipWith (· * ·) r c).sum

/-- Number of columns of a matrix, read off the first row. -/
def numCols (M : Mat) : Nat := (M.headD []).length

/-- Column `j` of a matrix. -/
def getCol (M : Mat) (j : Nat) : List Scalar := M.map (fun r => r.getD j 0)

/-- numpy transpose `.T` for a nonempty rectangular matrix. -/
def transpose (M : Mat) : Mat := (List.range (numCols M)).map (fun j => getCol M j)

/-- numpy `np.dot` / `.dot` matrix multiplication. -/
def matmul (A B : Mat) : Mat :=
  A.map (fun r => (transpose B).map (fun c => dotProd r c))

/-- Elementwise sum of two rows. -/
def rowAdd (r s : List Scalar) : List Scalar := List.zipWith (· + ·) r s

/-- numpy broadcast addition `M + b` of a matrix and a 1-row matrix `b`:
the single row of `b` is added to every row of `M`. -/
def addBias (M b : Mat) : Mat := M.map (fun r => rowAdd r (b.headD []))

/-- Sum of the rows of a matrix (empty list for the empty matrix). -/
def sumRows : Mat → List Scalar
  | [] => []
  | r :: rs => rs.foldl rowAdd r

/-- numpy `np.sum(M, axis=0, keepdims=True)`: column sums, kept as one row. -/
def colSumKeep (M : Mat) : Mat := [sumRows M]

/-- Scalar multiple of a matrix. -/
def smulMat (c : Scalar) (M : Mat) : Mat := M.map (List.map (fun x => c * x))

/-- Elementwise matrix addition. -/
def matAdd (A B : Mat) : Mat := List.zipWith rowAdd A B

/-- Elementwise matrix subtraction. -/
def matSub (A B : Mat) : Mat :=
  List.zipWith (fun r s => List.zipWith (· - ·) r s) A B

/-- Elementwise (Hadamard) product, numpy `*` on same-shape arrays. -/
def hadamard (A B : Mat) : Mat :=
  List.zipWith (fun r s => List.zipWith (· * ·) r s) A B

/-- Elementwise application of a scalar function. -/
def matMap (f : Scalar → Scalar) (M : Mat) : Mat := M.map (List.map f)

/-- numpy `np.ones_like`. -/
def onesLike (M : Mat) : Mat := M.map (List.map (fun _ => (1 : Scalar)))

/-- `M` has `r` rows, each of length `c`. -/
def hasShape (M : Mat) (r c : Nat) : Prop :=
  M.length = r ∧ ∀ row ∈ M, row.length = c

instance (M : Mat) (r c : Nat) : Decidable (hasShape M r c) :=
  inferInstanceAs (Decidable (M.length = r ∧ ∀ row ∈ M, row.length = c))

/-- The dictionary keys used by the source: the strings "X", "W", "b",
"output" of the Python `cache` / `grad` / `weight` / `weight_update`
dictionaries. -/
inductive Key where
  | X
  | W
  | b
  | output
deriving DecidableEq, Repr

/-- A Python dictionary with `Key` keys and matrix values, as an
association list in insertion order. -/
abbrev Dict := List (Key × Mat)

/-- Dictionary lookup `d[k]`; `none` models a `KeyError`. -/
def dget : Dict → Key → Option Mat
  | [], _ => none
  | (k, v) :: rest, key => if k = key then some v else dget rest key

/-- Dictionary assignment `d[k] = v`: replaces the value in place when the
key exists, appends otherwise (Python insertion-order semantics). -/
def dset : Dict → Key → Mat → Dict
  | [], key, v => [(key, v)]
  | (k, w) :: rest, key, v =>
      if k = key then (k, v) :: rest else (k, w) :: dset rest key v

/-- The key list of a dictionary, in order. -/
def dkeys (d : Dict) : List Key := d.map Prod.fst

/-- The mutable state of a `Function` instance: the `cache` and `grad`
dictionaries (both empty at construction). -/
structure FunctionState where
  cache : Dict
  grad : Dict
deriving DecidableEq, Repr

/-- A freshly constructed `Function` (e.g. `Sigmoid()`): both caches empty. -/
def FunctionState.fresh : FunctionState := { cache := [], grad := [] }

/-- The mutable state of a `Layer` instance: the `Function` caches plus the
`weight` and `weight_update` dictionaries. -/
structure LinearState where
  weight : Dict
  weight_update : Dict
  cache : Dict
  grad : Dict
deriving DecidableEq, Repr

/-- `Linear(in_dim, out_dim)` construction, with the two random normal
draws of `_init_weights` supplied explicitly as `W` and `b`: the weight
dictionary holds keys W and b, and every other dictionary is empty. -/
def Linear.make (W b : Mat) : LinearState :=
  { weight := [(Key.W, W), (Key.b, b)], weight_update := [], cache := [], grad := [] }

/-- `Linear.forward(X)`: computes `X.dot(W) + b`, caches the input under
key X and the output under key output, and returns the output.  `none`
when a weight lookup fails (impossible for a constructed `Linear`). -/
def Linear.forward (l : LinearState) (X : Mat) : Option (Mat × LinearState) :=
  match dget l.weight Key.W, dget l.weight Key.b with
  | some W, some b =>
      let output := addBias (matmul X W) b
      some (output, { l with cache := dset (dset l.cache Key.X X) Key.output output })
  | _, _ => none

/-- `Linear.local_grad(X)`: the dictionary of local gradients
`grads = dict(X := W, W := X, b := np.ones_like(b))` (the un-transposed
convention of the source; transposes are applied inside `backward`). -/
def Linear.local_grad (l : LinearState) (X : Mat) : Option Dict :=
  match dget l.weight Key.W, dget l.weight Key.b with
  | some W, some b => some [(Key.X, W), (Key.W, X), (Key.b, onesLike b)]
  | _, _ => none

/-- `Function.__call__` specialised to `Linear`: runs `forward`, then
computes `local_grad` at the same input and stores it wholesale into the
`grad` dictionary, returning the forward output. -/
def Linear.call (l : LinearState) (X : Mat) : Option (Mat × LinearState) :=
  match Linear.forward l X with
  | none => none
  | some (out, l1) =>
      match Linear.local_grad l1 X with
      | none => none
      | some g => some (out, { l1 with grad := g })

/-- `Linear.backward(dY)`: computes, in source order,
`dX = dY.dot(grad[X].T)`, reads `cache[X]` (bound but unused in the
source), `dW = grad[W].T.dot(dY)`, `db = np.sum(dY, axis=0, keepdims=True)`,
replaces `weight_update` by the dictionary with keys W and b holding `dW`
and `db`, and returns `dX`.  Any dictionary lookup failure (backward
before forward) gives `none`, modelling the `KeyError`. -/
def Linear.backward (l : LinearState) (dY : Mat) : Option (Mat × LinearState) :=
  match dget l.grad Key.X with
  | none => none
  | some gX =>
      match dget l.cache Key.X with
      | none => none
      | some _ =>
          match dget l.grad Key.W with
          | none => none
          | some gW =>
              some (matmul dY (transpose gX),
                { l with weight_update :=
                    [(Key.W, matmul (transpose gW) dY),
                     (Key.b, colSumKeep dY)] })

/-- One pass of the `_update_weights` loop body over the (key, value)
items of `weight`: each value becomes `value - lr * weight_update[key]`;
`none` at the first missing `weight_update` key, modelling the
`KeyError` (before any `backward`, `weight_update` is empty, so the very
first item already fails and nothing is mutated). -/
def updateEntries (wu : Dict) (lr : Scalar) : Dict → Option Dict
  | [] => some []
  | (k, w) :: rest =>
      match dget wu k with
      | none => none
      | some g =>
          match updateEntries wu lr rest with
          | none => none
          | some rest1 => some ((k, matSub w (smulMat lr g)) :: rest1)

/-- `Layer._update_weights(lr)`: gradient-descent update of every weight
entry in place. -/
def Layer.update_weights (l : LinearState) (lr : Scalar) : Option LinearState :=
  match updateEntries l.weight_update lr l.weight with
  | none => none
  | some w1 => some { l with weight := w1 }

/-- Modelled from the spec: `sigmoid` lives in src/nn/functional.py, which
is not under src/; the spec defines it as the elementwise logistic function
`1 / (1 + exp(-x))`.  The scalar logistic function is kept as an abstract
parameter `sig` of the development (its transcendental value is irrelevant
to every claim; only the structural identities below matter). -/
def sigmoid (sig : Scalar → Scalar) (X : Mat) : Mat := matMap sig X

/-- Modelled from the spec: `sigmoid_prime` lives in src/nn/functional.py,
which is not under src/; the spec defines the local gradient of the
nonlinearity as the elementwise `sigma(x) * (1 - sigma(x))`. -/
def sigmoid_prime (sig : Scalar → Scalar) (x : Scalar) : Scalar :=
  sig x * (1 - sig x)

/-- `Sigmoid.forward(X) = sigmoid(X)`; no cache writes in the source. -/
def Sigmoid.forward (sig : Scalar → Scalar) (X : Mat) : Mat := sigmoid sig X

/-- `Sigmoid.local_grad(X)`: the dictionary with the single key X holding
the elementwise derivative at the input. -/
def Sigmoid.local_grad (sig : Scalar → Scalar) (X : Mat) : Dict :=
  [(Key.X, matMap (sigmoid_prime sig) X)]

/-- `Function.__call__` specialised to `Sigmoid`: forward output, with the
local gradient stored wholesale into `grad`; the cache is untouched. -/
def Sigmoid.call (sig : Scalar → Scalar) (s : FunctionState) (X : Mat) :
    Mat × FunctionState :=
  (Sigmoid.forward sig X, { s with grad := Sigmoid.local_grad sig X })

/-- `Sigmoid.backward(dY) = dY * grad[X]` (elementwise); it mutates
nothing and stores nothing for any update, so only the value is returned;
`none` models the `KeyError` when `grad` has no entry for key X. -/
def Sigmoid.backward (s : FunctionState) (dY : Mat) : Option Mat :=
  match dget s.grad Key.X with
  | none => none
  | some gX => some (hadamard dY gX)

/-! Shape lemmas for the matrix operations. -/

theorem getCol_length (M : Mat) (j : Nat) : (getCol M j).length = M.length := by
  simp [getCol]

theorem transpose_length (M : Mat) : (transpose M).length = numCols M := by
  simp [transpose]

theorem numCols_eq (M : Mat) (r c : Nat) (hr : 0 < r) (h : hasShape M r c) :
    numCols M = c := by
  obtain ⟨hlen, hrows⟩ := h
  cases M with
  | nil => simp at hlen; omega
  | cons hd tl =>
      simpa [numCols] using hrows hd (List.mem_cons_self hd tl)

theorem transpose_hasShape (M : Mat) (r c : Nat) (hr : 0 < r)
    (h : hasShape M r c) : hasShape (transpose M) c r := by
  refine ⟨?_, ?_⟩
  · rw [transpose_length, numCols_eq M r c hr h]
  · intro row hrow
    simp only [transpose, List.mem_map] at hrow
    obtain ⟨j, _, rfl⟩ := hrow
    rw [getCol_length, h.1]

theorem matmul_hasShape (A B : Mat) (m n p : Nat) (hn : 0 < n)
    (hA : A.length = m) (hB : hasShape B n p) :
    hasShape (matmul A B) m p := by
  refine ⟨?_, ?_⟩
  · simp [matmul, hA]
  · intro row hrow
    simp only [matmul, List.mem_map] at hrow
    obtain ⟨r, _, rfl⟩ := hrow
    rw [List.length_map, transpose_length, numCols_eq B n p hn hB]

theorem rowAdd_length (r s : List Scalar) (c : Nat)
    (hr : r.length = c) (hs : s.length = c) : (rowAdd r s).length = c := by
  simp [rowAdd, hr, hs]

theorem addBias_hasShape (M b : Mat) (m c : Nat)
    (hM : hasShape M m c) (hb : hasShape b 1 c) :
    hasShape (addBias M b) m c := by
  obtain ⟨hbl, hbr⟩ := hb
  have hhead : (b.headD []).length = c := by
    cases b with
    | nil => simp at hbl
    | cons r rest => simpa using hbr r (List.mem_cons_self r rest)
  refine ⟨by simp [addBias, hM.1], ?_⟩
  intro row hrow
  simp only [addBias, List.mem_map] at hrow
  obtain ⟨r, hr, rfl⟩ := hrow
  exact rowAdd_length _ _ c (hM.2 r hr) hhead

theorem foldl_rowAdd_length (rs : List (List Scalar)) (acc : List Scalar)
    (c : Nat) (hacc : acc.length = c) (h : ∀ r ∈ rs, r.length = c) :
    (rs.foldl rowAdd acc).length = c := by
  induction rs generalizing acc with
  | nil => simpa
  | cons r rest ih =>
      refine ih (rowAdd acc r) ?_ ?_
      · exact rowAdd_length acc r c hacc (h r (List.mem_cons_self r rest))
      · intro r1 hr1
        exact h r1 (List.mem_cons_of_mem r hr1)

theorem colSumKeep_hasShape (M : Mat) (m c : Nat) (hm : 0 < m)
    (h : hasShape M m c) : hasShape (colSumKeep M) 1 c := by
  obtain ⟨hlen, hrows⟩ := h
  refine ⟨by simp [colSumKeep], ?_⟩
  intro row hrow
  simp only [colSumKeep, List.mem_singleton] at hrow
  subst hrow
  cases M with
  | nil => simp at hlen; omega
  | cons r rest =>
      refine foldl_rowAdd_length rest r c
        (hrows r (List.mem_cons_self r rest)) ?_
      intro r1 hr1
      exact hrows r1 (List.mem_cons_of_mem r hr1)

/-! Elementwise arithmetic lemmas for the update rule. -/

theorem zipWith_sub_mul_zero (r s : List Scalar) (h : r.length = s.length) :
    List.zipWith (· - ·) r (List.map (fun x => (0 : Scalar) * x) s) = r := by
  induction r generalizing s with
  | nil => simp
  | cons a r ih =>
      cases s with
      | nil => simp at h
      | cons x s =>
          rw [List.map_cons, List.zipWith_cons_cons, ih s (by simpa using h),
            zero_mul, sub_zero]

theorem matSub_smul_zero (A G : Mat) (m n : Nat)
    (hA : hasShape A m n) (hG : hasShape G m n) :
    matSub A (smulMat 0 G) = A := by
  obtain ⟨hAl, hAr⟩ := hA
  obtain ⟨hGl, hGr⟩ := hG
  induction A generalizing G m with
  | nil => simp [matSub]
  | cons r rest ih =>
      cases G with
      | nil => simp at hGl hAl; omega
      | cons g grest =>
          have hhead :
              List.zipWith (· - ·) r (List.map (fun x => (0 : Scalar) * x) g) = r :=
            zipWith_sub_mul_zero r g
              (by rw [hAr r (List.mem_cons_self r rest),
                      hGr g (List.mem_cons_self g grest)])
          have htail : matSub rest (smulMat 0 grest) = rest := by
            cases m with
            | zero => simp at hAl
            | succ m0 =>
                exact ih grest m0 (by simpa using hAl)
                  (fun row hrow => hAr row (List.mem_cons_of_mem r hrow))
                  (by simpa using hGl)
                  (fun row hrow => hGr row (List.mem_cons_of_mem g hrow))
          calc matSub (r :: rest) (smulMat 0 (g :: grest))
              = List.zipWith (· - ·) r (List.map (fun x => (0 : Scalar) * x) g) ::
                  matSub rest (smulMat 0 grest) := rfl
            _ = r :: rest := by rw [hhead, htail]

theorem zipWith_sub_mul_neg (r g : List Scalar) (lr : Scalar) :
    List.zipWith (· - ·) r (List.map (fun x => lr * x) g) =
      rowAdd r (List.map (fun x => -lr * x) g) := by
  induction r generalizing g with
  | nil => simp [rowAdd]
  | cons a r ih =>
      cases g with
      | nil => simp [rowAdd]
      | cons x g =>
          simp only [List.map_cons, List.zipWith_cons_cons, rowAdd,
            List.cons.injEq]
          exact ⟨by ring, ih g⟩

theorem matSub_smul_neg (A G : Mat) (lr : Scalar) :
    matSub A (smulMat lr G) = matAdd A (smulMat (-lr) G) := by
  induction A generalizing G with
  | nil => simp [matSub, matAdd]
  | cons r rest ih =>
      cases G with
      | nil => simp [matSub, matAdd, smulMat]
      | cons g grest =>
          calc matSub (r :: rest) (smulMat lr (g :: grest))
              = List.zipWith (· - ·) r (List.map (fun x => lr * x) g) ::
                  matSub rest (smulMat lr grest) := rfl
            _ = rowAdd r (List.map (fun x => -lr * x) g) ::
                  matAdd rest (smulMat (-lr) grest) := by
                  rw [zipWith_sub_mul_neg, ih grest]
            _ = matAdd (r :: rest) (smulMat (-lr) (g :: grest)) := rfl

/-! The claims. -/

/-- C3: for a Linear unit with parameters W (in-dim × out-dim) and b
(1 × out-dim) and an input X of shape batch × in-dim, forward returns
`X * W + b` with the single row of b broadcast across the batch rows (and
caches the input and the output), and the output has shape
batch × out-dim. -/
theorem linear_forward_spec (W b X : Mat) (ind od batch : Nat)
    (hind : 0 < ind)
    (hW : hasShape W ind od) (hb : hasShape b 1 od) (hX : hasShape X batch ind)
    (l : LinearState) (hw : l.weight = [(Key.W, W), (Key.b, b)]) :
    Linear.forward l X =
      some (addBias (matmul X W) b,
        { l with cache := (dset (dset l.cache Key.X X) Key.output
            (addBias (matmul X W) b)) }) ∧
    hasShape (addBias (matmul X W) b) batch od := by
  constructor
  · simp [Linear.forward, hw, dget]
  · exact addBias_hasShape _ _ _ _
      (matmul_hasShape X W batch ind od hind hX.1 hW) hb

/-- Closed instance of linear_forward_spec at W = [[2]], b = [[3]],
X = [[5]]. -/
theorem linear_forward_spec_witness :
    Linear.forward (Linear.make [[(2 : Scalar)]] [[3]]) [[5]] =
      some ([[13]],
        { weight := [(Key.W, [[2]]), (Key.b, [[3]])], weight_update := [],
          cache := [(Key.X, [[5]]), (Key.output, [[13]])], grad := [] }) ∧
    hasShape [[(13 : Scalar)]] 1 1 :=
  linear_forward_spec [[2]] [[3]] [[5]] 1 1 1 (by decide) (by decide)
    (by decide) (by decide) (Linear.make [[2]] [[3]]) rfl

/-- C1: after forward has been run with input X through the call protocol,
backward dY returns the input gradient `dY * transpose W` (shape
batch × in-dim) and stores as the parameter-update set exactly
`dW = transpose X * dY` (shape in-dim × out-dim) under key W and
`db = column sums of dY with a kept singleton batch dimension` (shape
1 × out-dim) under key b. -/
theorem linear_backward_spec (W b X dY : Mat) (ind od batch : Nat)
    (hind : 0 < ind) (hod : 0 < od) (hbatch : 0 < batch)
    (hW : hasShape W ind od) (hX : hasShape X batch ind)
    (hdY : hasShape dY batch od)
    (l1 : LinearState) (out : Mat)
    (hcall : Linear.call (Linear.make W b) X = some (out, l1)) :
    Linear.backward l1 dY =
      some (matmul dY (transpose W),
        { l1 with weight_update :=
            [(Key.W, matmul (transpose X) dY), (Key.b, colSumKeep dY)] }) ∧
    hasShape (matmul dY (transpose W)) batch ind ∧
    hasShape (matmul (transpose X) dY) ind od ∧
    hasShape (colSumKeep dY) 1 od := by
  simp only [Linear.call, Linear.forward, Linear.make, Linear.local_grad,
    dget, if_pos, if_neg, reduceIte, Option.some.injEq, Prod.mk.injEq] at hcall
  obtain ⟨rfl, rfl⟩ := hcall
  refine ⟨rfl, ?_, ?_, ?_⟩
  · exact matmul_hasShape dY (transpose W) batch od ind hod hdY.1
      (transpose_hasShape W ind od hind hW)
  · exact matmul_hasShape (transpose X) dY ind batch od hbatch
      (transpose_hasShape X batch ind hbatch hX).1 hdY
  · exact colSumKeep_hasShape dY batch od hbatch hdY

/-- Closed instance of linear_backward_spec at W = [[2]], b = [[3]],
X = [[5]], dY = [[7]]: the input gradient is [[14]], the stored update
set is dW = [[35]] under W and db = [[7]] under b. -/
theorem linear_backward_spec_witness :
    Linear.backward
        { weight := [(Key.W, [[(2 : Scalar)]]), (Key.b, [[3]])],
          weight_update := [],
          cache := [(Key.X, [[5]]), (Key.output, [[13]])],
          grad := [(Key.X, [[2]]), (Key.W, [[5]]), (Key.b, [[1]])] } [[7]] =
      some ([[14]],
        { weight := [(Key.W, [[2]]), (Key.b, [[3]])],
          weight_update := [(Key.W, [[35]]), (Key.b, [[7]])],
          cache := [(Key.X, [[5]]), (Key.output, [[13]])],
          grad := [(Key.X, [[2]]), (Key.W, [[5]]), (Key.b, [[1]])] }) ∧
    hasShape [[(14 : Scalar)]] 1 1 ∧ hasShape [[(35 : Scalar)]] 1 1 ∧
    hasShape [[(7 : Scalar)]] 1 1 :=
  linear_backward_spec [[2]] [[3]] [[5]] [[7]] 1 1 1 (by decide) (by decide)
    (by decide) (by decide) (by decide) (by decide) _ [[13]] rfl

/-- C2: with the parameter-update set populated by a backward call,
update(lr) replaces every parameter by `old - lr * gradient` elementwise;
lr = 0 leaves the parameters unchanged, and since
`old - lr * g = old + (-lr) * g` a negative lr adds its magnitude times
the gradient. -/
theorem update_weights_spec (W b dW db : Mat) (ind od : Nat)
    (hW : hasShape W ind od) (hb : hasShape b 1 od)
    (hdW : hasShape dW ind od) (hdb : hasShape db 1 od)
    (lr : Scalar) (l : LinearState)
    (hw : l.weight = [(Key.W, W), (Key.b, b)])
    (hwu : l.weight_update = [(Key.W, dW), (Key.b, db)]) :
    Layer.update_weights l lr =
      some { l with weight :=
        [(Key.W, matSub W (smulMat lr dW)),
         (Key.b, matSub b (smulMat lr db))] } ∧
    Layer.update_weights l 0 = some l ∧
    matSub W (smulMat lr dW) = matAdd W (smulMat (-lr) dW) ∧
    matSub b (smulMat lr db) = matAdd b (smulMat (-lr) db) := by
  refine ⟨?_, ?_, matSub_smul_neg W dW lr, matSub_smul_neg b db lr⟩
  · simp [Layer.update_weights, updateEntries, hw, hwu, dget]
  · have h0 : Layer.update_weights l 0 =
        some { l with weight :=
          [(Key.W, matSub W (smulMat 0 dW)),
           (Key.b, matSub b (smulMat 0 db))] } := by
      simp [Layer.update_weights, updateEntries, hw, hwu, dget]
    rw [h0, matSub_smul_zero W dW ind od hW hdW,
      matSub_smul_zero b db 1 od hb hdb, ← hw]

/-- Closed instance of update_weights_spec at W = [[2]], b = [[3]],
dW = [[35]], db = [[7]], lr = 1: the new weights are [[-33]] and
[[-4]]. -/
theorem update_weights_spec_witness :
    Layer.update_weights
        { weight := [(Key.W, [[(2 : Scalar)]]), (Key.b, [[3]])],
          weight_update := [(Key.W, [[35]]), (Key.b, [[7]])],
          cache := [], grad := [] } 1 =
      some { weight := [(Key.W, [[(-33 : Scalar)]]), (Key.b, [[-4]])],
             weight_update := [(Key.W, [[35]]), (Key.b, [[7]])],
             cache := [], grad := [] } ∧
    Layer.update_weights
        { weight := [(Key.W, [[(2 : Scalar)]]), (Key.b, [[3]])],
          weight_update := [(Key.W, [[35]]), (Key.b, [[7]])],
          cache := [], grad := [] } 0 =
      some { weight := [(Key.W, [[(2 : Scalar)]]), (Key.b, [[3]])],
             weight_update := [(Key.W, [[35]]), (Key.b, [[7]])],
             cache := [], grad := [] } ∧
    matSub [[(2 : Scalar)]] (smulMat 1 [[35]]) =
      matAdd [[2]] (smulMat (-1) [[35]]) ∧
    matSub [[(3 : Scalar)]] (smulMat 1 [[7]]) =
      matAdd [[3]] (smulMat (-1) [[7]]) :=
  update_weights_spec [[2]] [[3]] [[35]] [[7]] 1 1 (by decide) (by decide)
    (by decide) (by decide) 1 _ rfl rfl

/-- C4: composing Linear then Sigmoid, running both forwards on a batch X
and then both backwards on an output gradient dY, the input gradient
returned by the Linear backward is
`(dY ⊙ sigmoid_prime(z)) * transpose W` with `z = X * W + b` the Linear
pre-activation output and ⊙ the elementwise product. -/
theorem chain_rule_composition (sig : Scalar → Scalar) (W b X dY : Mat)
    (s : FunctionState) :
    ∃ l1 s1 a l2,
      Linear.call (Linear.make W b) X =
        some (addBias (matmul X W) b, l1) ∧
      Sigmoid.call sig s (addBias (matmul X W) b) = (a, s1) ∧
      Sigmoid.backward s1 dY =
        some (hadamard dY
          (matMap (sigmoid_prime sig) (addBias (matmul X W) b))) ∧
      Linear.backward l1
          (hadamard dY
            (matMap (sigmoid_prime sig) (addBias (matmul X W) b))) =
        some (matmul
          (hadamard dY
            (matMap (sigmoid_prime sig) (addBias (matmul X W) b)))
          (transpose W), l2) :=
  ⟨_, _, _, _, rfl, rfl, rfl, rfl⟩

/-- C5: after a Sigmoid forward through the call protocol with input X,
the cached local gradient under key X is the elementwise derivative
`sig x * (1 - sig x)` at the forward input, backward dY returns exactly
the elementwise product of dY with that cached local gradient, and
nothing is stored for any update (the unit has no parameters and backward
leaves the state untouched, returning only the value). -/
theorem sigmoid_unit_spec (sig : Scalar → Scalar) (s : FunctionState)
    (X dY : Mat) :
    (Sigmoid.call sig s X).1 = matMap sig X ∧
    (Sigmoid.call sig s X).2.cache = s.cache ∧
    dget (Sigmoid.call sig s X).2.grad Key.X =
      some (matMap (fun x => sig x * (1 - sig x)) X) ∧
    Sigmoid.backward (Sigmoid.call sig s X).2 dY =
      some (hadamard dY (matMap (fun x => sig x * (1 - sig x)) X)) :=
  ⟨rfl, rfl, rfl, rfl⟩

/-- C6: the call-protocol forward returns the output value and, as a side
effect, stores the local gradients with respect to every operand: for
Linear the gradients under keys X (the weight W), W (the input X) and b
(a ones tensor shaped like b); for Sigmoid the single gradient under key
X (the elementwise derivative at the input). -/
theorem call_populates_local_grads (sig : Scalar → Scalar)
    (W b X : Mat) (l : LinearState) (s : FunctionState)
    (hw : l.weight = [(Key.W, W), (Key.b, b)]) :
    (∃ l1, Linear.call l X = some (addBias (matmul X W) b, l1) ∧
        l1.grad = [(Key.X, W), (Key.W, X), (Key.b, onesLike b)]) ∧
    (Sigmoid.call sig s X).1 = matMap sig X ∧
    (Sigmoid.call sig s X).2.grad = [(Key.X, matMap (sigmoid_prime sig) X)] := by
  refine ⟨⟨{ l with
      cache := (dset (dset l.cache Key.X X) Key.output (addBias (matmul X W) b)),
      grad := [(Key.X, W), (Key.W, X), (Key.b, onesLike b)] }, ?_, rfl⟩, rfl, rfl⟩
  simp [Linear.call, Linear.forward, Linear.local_grad, hw, dget]

/-- Closed instance of call_populates_local_grads at W = [[2]], b = [[3]],
X = [[5]], with the identity as scalar activation. -/
theorem call_populates_local_grads_witness :
    (∃ l1, Linear.call (Linear.make [[(2 : Scalar)]] [[3]]) [[5]] =
        some (addBias (matmul [[5]] [[2]]) [[3]], l1) ∧
        l1.grad = [(Key.X, [[2]]), (Key.W, [[5]]), (Key.b, onesLike [[3]])]) ∧
    (Sigmoid.call (fun x => x) FunctionState.fresh [[5]]).1 =
      matMap (fun x => x) [[5]] ∧
    (Sigmoid.call (fun x => x) FunctionState.fresh [[5]]).2.grad =
      [(Key.X, matMap (sigmoid_prime (fun x => x)) [[5]])] :=
  call_populates_local_grads (fun x => x) [[2]] [[3]] [[5]]
    (Linear.make [[2]] [[3]]) FunctionState.fresh rfl

/-- C7: backward on a freshly constructed unit (no forward yet) fails
with the modelled KeyError, for Linear and for Sigmoid alike, and update
on a freshly constructed Linear (no backward yet, so the parameter-update
set is empty) also fails rather than updating with stale data. -/
theorem invalid_state_error_spec (W b dY : Mat) (lr : Scalar) :
    Linear.backward (Linear.make W b) dY = none ∧
    Layer.update_weights (Linear.make W b) lr = none ∧
    Sigmoid.backward FunctionState.fresh dY = none :=
  ⟨rfl, rfl, rfl⟩

/-- C8: running the call-protocol forward with x1 and then with x2 leaves
the unit in exactly the state produced by running it with x2 alone — the
second call fully replaces the cache and grad contents with no
accumulation — and the second output agrees, for Linear (from
construction) and for Sigmoid (from any prior state). -/
theorem call_replaces_caches (sig : Scalar → Scalar) (W b x1 x2 : Mat)
    (s : FunctionState) :
    (Linear.call (Linear.make W b) x1).bind (fun p => Linear.call p.2 x2) =
      Linear.call (Linear.make W b) x2 ∧
    Sigmoid.call sig (Sigmoid.call sig s x1).2 x2 = Sigmoid.call sig s x2 :=
  ⟨rfl, rfl⟩

/-- C9: after a backward call on a Linear unit, the key list of the
parameter-update set is exactly the key list of the parameter set,
namely W then b: every parameter has a stored gradient and there is no
extra gradient entry. -/
theorem weight_update_keys_spec (W b dY dX : Mat) (l l2 : LinearState)
    (hw : l.weight = [(Key.W, W), (Key.b, b)])
    (hb : Linear.backward l dY = some (dX, l2)) :
    dkeys l2.weight_update = dkeys l2.weight ∧
    dkeys l2.weight_update = [Key.W, Key.b] := by
  unfold Linear.backward at hb
  split at hb
  · exact Option.noConfusion hb
  · split at hb
    · exact Option.noConfusion hb
    · split at hb
      · exact Option.noConfusion hb
      · simp only [Option.some.injEq, Prod.mk.injEq] at hb
        obtain ⟨-, rfl⟩ := hb
        exact ⟨by simp [dkeys, hw], rfl⟩

/-- Closed instance of weight_update_keys_spec after a concrete
call-then-backward run. -/
theorem weight_update_keys_spec_witness :
    dkeys [(Key.W, [[(35 : Scalar)]]), (Key.b, [[7]])] =
      dkeys [(Key.W, [[(2 : Scalar)]]), (Key.b, [[3]])] ∧
    dkeys [(Key.W, [[(35 : Scalar)]]), (Key.b, [[7]])] = [Key.W, Key.b] :=
  weight_update_keys_spec [[2]] [[3]] [[7]] [[14]]
    { weight := [(Key.W, [[2]]), (Key.b, [[3]])], weight_update := [],
      cache := [(Key.X, [[5]]), (Key.output, [[13]])],
      grad := [(Key.X, [[2]]), (Key.W, [[5]]), (Key.b, [[1]])] }
    { weight := [(Key.W, [[2]]), (Key.b, [[3]])],
      weight_update := [(Key.W, [[35]]), (Key.b, [[7]])],
      cache := [(Key.X, [[5]]), (Key.output, [[13]])],
      grad := [(Key.X, [[2]]), (Key.W, [[5]]), (Key.b, [[1]])] }
    rfl rfl

/-- C10: backward modifies only the parameter-update set — the parameter
entries, the forward cache and the local-gradient cache are unchanged —
and update modifies only the parameter set, so the parameters change only
through the update operation. -/
theorem backward_frame_spec (l l2 l3 : LinearState) (dY dX : Mat)
    (lr : Scalar)
    (hb : Linear.backward l dY = some (dX, l2))
    (hu : Layer.update_weights l2 lr = some l3) :
    l2.weight = l.weight ∧ l2.cache = l.cache ∧ l2.grad = l.grad ∧
    l3.cache = l2.cache ∧ l3.grad = l2.grad ∧
    l3.weight_update = l2.weight_update := by
  unfold Linear.backward at hb
  split at hb
  · exact Option.noConfusion hb
  · split at hb
    · exact Option.noConfusion hb
    · split at hb
      · exact Option.noConfusion hb
      · simp only [Option.some.injEq, Prod.mk.injEq] at hb
        obtain ⟨-, rfl⟩ := hb
        unfold Layer.update_weights at hu
        split at hu
        · exact Option.noConfusion hu
        · simp only [Option.some.injEq] at hu
          subst hu
          exact ⟨rfl, rfl, rfl, rfl, rfl, rfl⟩

/-- Closed instance of backward_frame_spec after a concrete
call-then-backward-then-update run. -/
theorem backward_frame_spec_witness :
    [(Key.W, [[(2 : Scalar)]]), (Key.b, [[3]])] =
      [(Key.W, [[(2 : Scalar)]]), (Key.b, [[3]])] ∧
    [(Key.X, [[(5 : Scalar)]]), (Key.output, [[13]])] =
      [(Key.X, [[(5 : Scalar)]]), (Key.output, [[13]])] ∧
    [(Key.X, [[(2 : Scalar)]]), (Key.W, [[5]]), (Key.b, [[1]])] =
      [(Key.X, [[(2 : Scalar)]]), (Key.W, [[5]]), (Key.b, [[1]])] ∧
    [(Key.X, [[(5 : Scalar)]]), (Key.output, [[13]])] =
      [(Key.X, [[(5 : Scalar)]]), (Key.output, [[13]])] ∧
    [(Key.X, [[(2 : Scalar)]]), (Key.W, [[5]]), (Key.b, [[1]])] =
      [(Key.X, [[(2 : Scalar)]]), (Key.W, [[5]]), (Key.b, [[1]])] ∧
    [(Key.W, [[(35 : Scalar)]]), (Key.b, [[7]])] =
      [(Key.W, [[(35 : Scalar)]]), (Key.b, [[7]])] :=
  backward_frame_spec
    { weight := [(Key.W, [[2]]), (Key.b, [[3]])], weight_update := [],
      cache := [(Key.X, [[5]]), (Key.output, [[13]])],
      grad := [(Key.X, [[2]]), (Key.W, [[5]]), (Key.b, [[1]])] }
    { weight := [(Key.W, [[2]]), (Key.b, [[3]])],
      weight_update := [(Key.W, [[35]]), (Key.b, [[7]])],
      cache := [(Key.X, [[5]]), (Key.output, [[13]])],
      grad := [(Key.X, [[2]]), (Key.W, [[5]]), (Key.b, [[1]])] }
    { weight := [(Key.W, [[-33]]), (Key.b, [[-4]])],
      weight_update := [(Key.W, [[35]]), (Key.b, [[7]])],
      cache := [(Key.X, [[5]]), (Key.output, [[13]])],
      grad := [(Key.X, [[2]]), (Key.W, [[5]]), (Key.b, [[1]])] }
    [[7]] [[14]] 1 rfl rfl

end NNFS
